import Mathlib

/-!
Shallow embedding of the tool-aggregation and conversation-orchestration
core of `host-cli/cli.py` (classes `ChatLogManager` and `MCPManager` and
the `main` conversation loop), together with proofs of its qualified-name,
parameter-mapping, registry, turn-ordering and session-invariant
properties.

Conventions of the embedding:
* Python dicts are association lists `List (String × α)`; `assocLookup`
  is `d.get(k)`, `dictInsert` is `d[k] = v` (update in place when the key
  exists, append otherwise, as CPython preserves insertion order).
* A raised Python exception is the `Except.error` branch of
  `Except String α`.
* The MCP transport (`FastMCPClient.call_tool`) composed with the raw
  result normalisation in `main` (cli.py lines 541-558) is abstracted as
  a `Backend` function argument returning either a normalised payload or
  a raised error; JSON payloads are carried as opaque strings, which no
  modelled branch inspects.  The schema-override table of
  `_modify_tool_schema` (lines 175-260) is likewise outside the model:
  no modelled behaviour reads schema contents.
* Wall-clock readings (`datetime.now()`) are explicit `Nat` arguments.
-/

namespace CLI

/-- Worker for `MCPManager.parse_tool_name` (cli.py lines 339-346):
`claude_tool_name.split('_', 1)` splits a character list at the first
occurrence of the separator, returning the parts before and after it, or
`none` when the separator does not occur. -/
def splitAtSep : List Char → Option (List Char × List Char)
  | [] => none
  | c :: cs =>
    if c = '_' then some ([], cs)
    else
      match splitAtSep cs with
      | some (a, b) => some (c :: a, b)
      | none => none

/-- `MCPManager.parse_tool_name` (cli.py lines 339-346): split on the first
underscore; with two parts return `(alias, tool name)`, otherwise fall back
to `(None, original string)`. -/
def parse_tool_name (s : String) : Option String × String :=
  match splitAtSep s.data with
  | some (a, b) => (some (String.mk a), String.mk b)
  | none => (none, s)

/-- The qualified-name composition used by `MCPManager.get_tools_for_claude`
(cli.py line 331): the f-string interpolation of server alias and tool name
joined by an underscore. -/
def composeToolName (al name : String) : String :=
  al ++ "_" ++ name

theorem splitAtSep_of_not_mem (l : List Char) (h : '_' ∉ l) :
    splitAtSep l = none := by
  induction l with
  | nil => rfl
  | cons c cs ih =>
    have hc : ¬ c = '_' := fun hc => h (hc ▸ List.mem_cons_self c cs)
    have hcs : '_' ∉ cs := fun hm => h (List.mem_cons_of_mem c hm)
    simp [splitAtSep, hc, ih hcs]

theorem splitAtSep_append (pre post : List Char) (h : '_' ∉ pre) :
    splitAtSep (pre ++ '_' :: post) = some (pre, post) := by
  induction pre with
  | nil => simp [splitAtSep]
  | cons c cs ih =>
    have hc : ¬ c = '_' := fun hc => h (hc ▸ List.mem_cons_self c cs)
    have hcs : '_' ∉ cs := fun hm => h (List.mem_cons_of_mem c hm)
    simp [splitAtSep, hc, ih hcs]

/-- C2: for every alias that does not contain the separator character and
every tool name, splitting the composed qualified name at the first
underscore (`parse_tool_name`) reproduces exactly the alias / tool-name
pair that `get_tools_for_claude` composed. -/
theorem compose_parse_roundtrip (a t : String) (h : '_' ∉ a.data) :
    parse_tool_name (composeToolName a t) = (some a, t) := by
  obtain ⟨la⟩ := a
  obtain ⟨lt⟩ := t
  have hdata : (composeToolName (String.mk la) (String.mk lt)).data
      = la ++ '_' :: lt := by
    show la ++ '_' :: [] ++ lt = la ++ '_' :: lt
    simp
  rw [parse_tool_name, hdata, splitAtSep_append la lt h]

/-- Witness: the round trip evaluated on the concrete alias and tool name of
the local filesystem provider. -/
theorem compose_parse_roundtrip_wit :
    ('_' ∉ "local".data) ∧
      parse_tool_name (composeToolName "local" "read_file")
        = (some "local", "read_file") :=
  ⟨by decide, compose_parse_roundtrip "local" "read_file" (by decide)⟩

/-- C10: `parse_tool_name` is total (it is a plain function of the input
string); on a string with no underscore it returns no alias together with
the original string, and on a string whose first underscore separates
`pre` from `post` it returns `(some pre, post)`. -/
theorem parse_tool_name_total :
    (∀ s : String, '_' ∉ s.data → parse_tool_name s = (none, s))
    ∧ (∀ pre post : String, '_' ∉ pre.data →
        parse_tool_name (String.mk (pre.data ++ '_' :: post.data))
          = (some pre, post)) := by
  constructor
  · intro s h
    rw [parse_tool_name, splitAtSep_of_not_mem s.data h]
  · intro pre post h
    rw [parse_tool_name]
    show (match splitAtSep (pre.data ++ '_' :: post.data) with
      | some (a, b) => (some (String.mk a), String.mk b)
      | none => (none, String.mk (pre.data ++ '_' :: post.data))) = _
    rw [splitAtSep_append pre.data post.data h]

/-- Witness: `parse_tool_name` evaluated on a separator-free name and on a
qualified name. -/
theorem parse_tool_name_total_wit :
    parse_tool_name "status" = (none, "status")
    ∧ parse_tool_name (String.mk ("serving".data ++ '_' :: "git_status".data))
        = (some "serving", "git_status") :=
  ⟨parse_tool_name_total.1 "status" (by decide),
   parse_tool_name_total.2 "serving" "git_status" (by decide)⟩

/-- Python `d.get(k)` on a dict modelled as an insertion-ordered
association list: the value at the first (and, for a genuine dict, only)
matching key. -/
def assocLookup {α : Type} : List (String × α) → String → Option α
  | [], _ => none
  | p :: rest, k => if p.1 = k then some p.2 else assocLookup rest k

/-- Python `d[k] = v`: if the key exists its value is updated in place
(keeping its position, as CPython dicts do), otherwise the pair is
appended. -/
def dictInsert {α : Type} (m : List (String × α)) (k : String) (v : α) :
    List (String × α) :=
  if (assocLookup m k).isSome then
    m.map (fun p => if p.1 = k then (k, v) else p)
  else m ++ [(k, v)]

theorem assocLookup_append {α : Type} (m n : List (String × α)) (k : String) :
    assocLookup (m ++ n) k
      = match assocLookup m k with
        | some v => some v
        | none => assocLookup n k := by
  induction m with
  | nil => simp [assocLookup]
  | cons p rest ih =>
    by_cases h : p.1 = k <;> simp [assocLookup, h, ih]

theorem assocLookup_map_update {α : Type} (m : List (String × α))
    (k : String) (v : α) (b : String) :
    assocLookup (m.map (fun p => if p.1 = k then (k, v) else p)) b
      = if b = k then (assocLookup m k).map (fun _ => v)
        else assocLookup m b := by
  induction m with
  | nil => simp [assocLookup]
  | cons p rest ih =>
    by_cases hpk : p.1 = k
    · by_cases hbk : b = k
      · subst hbk
        simp [assocLookup, hpk, List.map]
      · have hpb : ¬ p.1 = b := by
          rw [hpk]; exact fun h => hbk h.symm
        have hkb : ¬ k = b := fun h => hbk h.symm
        simp [assocLookup, hpk, hpb, hbk, hkb, ih]
    · by_cases hpb : p.1 = b
      · have hbk : ¬ b = k := fun h => hpk (hpb.trans h)
        simp [assocLookup, hpk, hpb, hbk]
      · simp [assocLookup, hpk, hpb, ih]

theorem assocLookup_dictInsert {α : Type} (m : List (String × α))
    (k : String) (v : α) (b : String) :
    assocLookup (dictInsert m k v) b
      = if b = k then some v else assocLookup m b := by
  unfold dictInsert
  by_cases h : (assocLookup m k).isSome
  · obtain ⟨w, hw⟩ := Option.isSome_iff_exists.mp h
    simp [h, assocLookup_map_update, hw]
  · have hk : assocLookup m k = none := Option.not_isSome_iff_eq_none.mp h
    rw [if_neg h, assocLookup_append]
    by_cases hbk : b = k
    · subst hbk
      rw [hk]
      simp [assocLookup]
    · have hkb : ¬ k = b := fun h2 => hbk h2.symm
      rw [if_neg hbk]
      cases hmb : assocLookup m b <;> simp [assocLookup, hkb]

theorem assocLookup_eq_none_iff {α : Type} (m : List (String × α))
    (k : String) : assocLookup m k = none ↔ k ∉ m.map Prod.fst := by
  induction m with
  | nil => simp [assocLookup]
  | cons p rest ih =>
    by_cases h : p.1 = k
    · simp [assocLookup, h]
    · have : ¬ k = p.1 := fun h2 => h h2.symm
      simp [assocLookup, h, this, ih]

theorem assocLookup_mem {α : Type} (m : List (String × α)) (k : String)
    (v : α) (h : assocLookup m k = some v) : (k, v) ∈ m := by
  induction m with
  | nil => simp [assocLookup] at h
  | cons p rest ih =>
    by_cases hpk : p.1 = k
    · simp only [assocLookup, hpk, if_true, Option.some.injEq] at h
      have hp : p = (k, v) := by
        obtain ⟨p1, p2⟩ := p
        exact Prod.ext hpk h
      rw [hp]
      exact List.mem_cons_self _ _
    · simp only [assocLookup, hpk, if_false] at h
      exact List.mem_cons_of_mem p (ih h)

theorem keys_dictInsert {α : Type} (m : List (String × α)) (k : String)
    (v : α) :
    (dictInsert m k v).map Prod.fst
      = if (assocLookup m k).isSome then m.map Prod.fst
        else m.map Prod.fst ++ [k] := by
  unfold dictInsert
  by_cases h : (assocLookup m k).isSome
  · simp only [h, if_true, List.map_map]
    refine List.map_congr_left ?_
    intro p _
    by_cases hpk : p.1 = k <;> simp [hpk]
  · simp [h]

theorem nodup_keys_dictInsert {α : Type} (m : List (String × α))
    (k : String) (v : α) (h : (m.map Prod.fst).Nodup) :
    ((dictInsert m k v).map Prod.fst).Nodup := by
  rw [keys_dictInsert]
  by_cases hs : (assocLookup m k).isSome
  · simpa [hs] using h
  · have hk : assocLookup m k = none := Option.not_isSome_iff_eq_none.mp hs
    have hkm : k ∉ m.map Prod.fst := (assocLookup_eq_none_iff m k).mp hk
    simp [hs, List.nodup_append, h, hkm]

/-- The static per-tool rename table `parameter_mappings` of
`MCPManager._map_parameters` (cli.py lines 287-313).  A table value of
`none` models a Python rename entry that is explicitly `None` (the code
drops such keys at line 321); every entry of the actual table is a plain
string, i.e. `some`. -/
def parameter_mappings : List (String × List (String × Option String)) :=
  [("create_directory", [("path", some "directory_path")]),
   ("write_file", [("path", some "file_path")]),
   ("read_file", [("path", some "file_path")]),
   ("delete_file", [("path", some "file_path")]),
   ("list_directory", [("path", some "directory_path")]),
   ("git_init", [("directory", some "repo_path")]),
   ("git_add", [("directory", some "repo_path")]),
   ("git_commit", [("directory", some "repo_path")]),
   ("git_status", [("directory", some "repo_path")]),
   ("git_log", [("directory", some "repo_path")]),
   ("git_branch", [("directory", some "repo_path")]),
   ("git_diff", [("directory", some "repo_path")]),
   ("search_cheapest_flights",
     [("origin", some "from_city"), ("destination", some "to_city")]),
   ("search_flights",
     [("origin", some "from_city"), ("destination", some "to_city")])]

/-- `parameter_mappings.get(tool_name, {})` (cli.py line 315). -/
def getMapping (tool : String) : List (String × Option String) :=
  match assocLookup parameter_mappings tool with
  | some m => m
  | none => []

/-- `mapping.get(key, key)` (cli.py line 320): the backend key a supplied
key is emitted under, where `none` models the explicit-`None` drop case
tested at line 321. -/
def mappedKeyOf (mapping : List (String × Option String)) (k : String) :
    Option String :=
  match assocLookup mapping k with
  | some v => v
  | none => some k

/-- The `for key, value in params.items()` loop of `_map_parameters`
(cli.py lines 318-322), as a left fold over the supplied items with the
accumulated `mapped_params` dict made explicit. -/
def mapParamsAux {α : Type} (mapping : List (String × Option String)) :
    List (String × α) → List (String × α) → List (String × α)
  | acc, [] => acc
  | acc, p :: rest =>
    match mappedKeyOf mapping p.1 with
    | some mk => mapParamsAux mapping (dictInsert acc mk p.2) rest
    | none => mapParamsAux mapping acc rest

/-- `MCPManager._map_parameters` (cli.py lines 284-324): look the tool up
in the static rename table and rebuild the argument dict key by key. -/
def map_parameters {α : Type} (tool : String) (params : List (String × α)) :
    List (String × α) :=
  mapParamsAux (getMapping tool) [] params

theorem find?_append {α : Type} (l₁ l₂ : List α) (q : α → Bool) :
    (l₁ ++ l₂).find? q
      = match l₁.find? q with
        | some x => some x
        | none => l₂.find? q := by
  induction l₁ with
  | nil => simp
  | cons x rest ih =>
    by_cases h : q x <;> simp [List.find?, h, ih]

/-- Key lemma: the value the produced dict holds at a backend key `b` is
the value of the rightmost supplied item whose effective key is `b`
(later items overwrite earlier ones via `dictInsert`), falling back to
the accumulator. -/
theorem assocLookup_mapParamsAux {α : Type}
    (mapping : List (String × Option String)) (args acc : List (String × α))
    (b : String) :
    assocLookup (mapParamsAux mapping acc args) b
      = match args.reverse.find? (fun p => mappedKeyOf mapping p.1 = some b) with
        | some p => some p.2
        | none => assocLookup acc b := by
  induction args generalizing acc with
  | nil => simp [mapParamsAux]
  | cons p rest ih =>
    rw [List.reverse_cons, find?_append]
    cases hmk : mappedKeyOf mapping p.1 with
    | none =>
      have hq : (fun p => decide (mappedKeyOf mapping p.1 = some b)) p = false := by
        simp [hmk]
      simp only [mapParamsAux, hmk, ih]
      cases rest.reverse.find? (fun p => mappedKeyOf mapping p.1 = some b) with
      | none => simp [List.find?, hq]
      | some x => rfl
    | some mk =>
      simp only [mapParamsAux, hmk, ih, assocLookup_dictInsert]
      cases rest.reverse.find? (fun p => mappedKeyOf mapping p.1 = some b) with
      | none =>
        by_cases hb : mk = b
        · subst hb
          have hq : (fun p => decide (mappedKeyOf mapping p.1 = some mk)) p = true := by
            simp [hmk]
          simp [List.find?, hq]
        · have hq : (fun p => decide (mappedKeyOf mapping p.1 = some b)) p = false := by
            simp [hmk, hb]
          have hbmk : ¬ b = mk := fun h2 => hb h2.symm
          simp [List.find?, hq, hbmk]
      | some x => rfl

/-- When every supplied key is absent from the rename table and the
supplied keys are distinct, the loop of `_map_parameters` reproduces the
supplied dict after the accumulator. -/
theorem mapParamsAux_id {α : Type} (mapping : List (String × Option String)) :
    ∀ (args acc : List (String × α)),
      (∀ p ∈ args, assocLookup mapping p.1 = none) →
      (args.map Prod.fst).Nodup →
      (∀ p ∈ args, p.1 ∉ acc.map Prod.fst) →
      mapParamsAux mapping acc args = acc ++ args := by
  intro args
  induction args with
  | nil => intro acc _ _ _; simp [mapParamsAux]
  | cons p rest ih =>
    intro acc hmap hnd hdisj
    have hp : assocLookup mapping p.1 = none :=
      hmap p (List.mem_cons_self p rest)
    have hmk : mappedKeyOf mapping p.1 = some p.1 := by
      simp [mappedKeyOf, hp]
    have hpacc : assocLookup acc p.1 = none :=
      (assocLookup_eq_none_iff acc p.1).mpr
        (hdisj p (List.mem_cons_self p rest))
    have hins : dictInsert acc p.1 p.2 = acc ++ [p] := by
      unfold dictInsert
      rw [hpacc]
      simp
    simp only [mapParamsAux, hmk, hins]
    rw [ih (acc ++ [p]) (fun q hq => hmap q (List.mem_cons_of_mem p hq))
      (List.Nodup.of_cons hnd) ?_]
    · simp
    · intro q hq
      simp only [List.map_append, List.mem_append]
      rintro (hqa | hqp)
      · exact hdisj q (List.mem_cons_of_mem p hq) hqa
      · have hq1 : q.1 = p.1 := by simpa using hqp
        have hnp : p.1 ∉ rest.map Prod.fst := (List.nodup_cons.mp hnd).1
        exact hnp (hq1 ▸ List.mem_map_of_mem Prod.fst hq)

/-- The produced dict has distinct keys (it is built by dict insertion). -/
theorem nodup_keys_mapParamsAux {α : Type}
    (mapping : List (String × Option String)) :
    ∀ (args acc : List (String × α)), (acc.map Prod.fst).Nodup →
      ((mapParamsAux mapping acc args).map Prod.fst).Nodup := by
  intro args
  induction args with
  | nil => intro acc h; simpa [mapParamsAux] using h
  | cons p rest ih =>
    intro acc h
    cases hmk : mappedKeyOf mapping p.1 with
    | none => simpa [mapParamsAux, hmk] using ih acc h
    | some mk =>
      simpa [mapParamsAux, hmk] using
        ih (dictInsert acc mk p.2) (nodup_keys_dictInsert acc mk p.2 h)

/-- Every key of the produced dict is either a key of the accumulator or
the effective backend key of some supplied item. -/
theorem keys_mapParamsAux_sub {α : Type}
    (mapping : List (String × Option String)) :
    ∀ (args acc : List (String × α)) (b : String),
      b ∈ (mapParamsAux mapping acc args).map Prod.fst →
      b ∈ acc.map Prod.fst ∨ ∃ p ∈ args, mappedKeyOf mapping p.1 = some b := by
  intro args
  induction args with
  | nil =>
    intro acc b hb
    exact Or.inl (by simpa [mapParamsAux] using hb)
  | cons p rest ih =>
    intro acc b hb
    cases hmk : mappedKeyOf mapping p.1 with
    | none =>
      rcases ih acc b (by simpa [mapParamsAux, hmk] using hb) with h | ⟨q, hq, hqe⟩
      · exact Or.inl h
      · exact Or.inr ⟨q, List.mem_cons_of_mem p hq, hqe⟩
    | some mk =>
      rcases ih (dictInsert acc mk p.2) b
          (by simpa [mapParamsAux, hmk] using hb) with h | ⟨q, hq, hqe⟩
      · rw [keys_dictInsert] at h
        by_cases hs : (assocLookup acc mk).isSome
        · exact Or.inl (by simpa [hs] using h)
        · have h3 : b ∈ acc.map Prod.fst ++ [mk] := by
            rw [if_neg hs] at h; exact h
          rcases List.mem_append.mp h3 with h2 | h2
          · exact Or.inl h2
          · have hbmk : b = mk := by simpa using h2
            exact Or.inr ⟨p, List.mem_cons_self p rest, by rw [hmk, hbmk]⟩
      · exact Or.inr ⟨q, List.mem_cons_of_mem p hq, hqe⟩

/-- C4: `_map_parameters` processes each supplied key independently — a
key renamed by the table is emitted under the renamed key, a key whose
table entry is the explicit drop marker contributes nothing, and any
other key passes through unchanged (third conjunct, which locates each
backend key at the rightmost supplied item producing it); a tool with no
rename table gets its arguments back unchanged (first conjunct); the
`read_file` scenario maps `path` to `file_path` (second conjunct).  The
function is total by construction. -/
theorem map_parameters_spec :
    (∀ (t : String) (args : List (String × String)),
        assocLookup parameter_mappings t = none →
        (args.map Prod.fst).Nodup →
        map_parameters t args = args)
    ∧ (∀ v : String,
        map_parameters "read_file" [("path", v)] = [("file_path", v)])
    ∧ (∀ (t : String) (args : List (String × String)) (b : String),
        assocLookup (map_parameters t args) b
          = (args.reverse.find?
              (fun p => mappedKeyOf (getMapping t) p.1 = some b)).map
                Prod.snd) := by
  refine ⟨?_, ?_, ?_⟩
  · intro t args ht hnd
    have hmapEq : getMapping t = [] := by
      simp [getMapping, ht]
    unfold map_parameters
    rw [hmapEq, mapParamsAux_id [] args [] (by intro p _; rfl) hnd
      (by intro p _; simp)]
    simp
  · intro v
    rfl
  · intro t args b
    unfold map_parameters
    rw [assocLookup_mapParamsAux]
    cases args.reverse.find? (fun p => mappedKeyOf (getMapping t) p.1 = some b) with
    | none => simp [assocLookup]
    | some p => rfl

/-- Witness: a tool absent from the rename table passes its arguments
through unchanged; a renamed key is located under its backend name. -/
theorem map_parameters_spec_wit :
    assocLookup parameter_mappings "frobnicate" = none
    ∧ map_parameters "frobnicate"
        ([("limit", "5")] : List (String × String)) = [("limit", "5")]
    ∧ assocLookup (map_parameters "read_file"
        ([("path", "notes.txt")] : List (String × String))) "file_path"
        = (([("path", "notes.txt")] : List (String × String)).reverse.find?
            (fun p => mappedKeyOf (getMapping "read_file") p.1
              = some "file_path")).map Prod.snd :=
  ⟨by decide,
   map_parameters_spec.1 "frobnicate" [("limit", "5")] (by decide) (by decide),
   map_parameters_spec.2.2 "read_file" [("path", "notes.txt")] "file_path"⟩

/-- C7: when the rename targets of a tool's table are disjoint from its
rename sources, `_map_parameters` is idempotent.  (Disjointness is stated
as the executable check that no table target occurs among the table
keys.) -/
theorem map_parameters_idempotent {α : Type} (t : String)
    (args : List (String × α))
    (h : (getMapping t).all
        (fun p => match p.2 with
          | some d => (assocLookup (getMapping t) d).isNone
          | none => true) = true) :
    map_parameters t (map_parameters t args) = map_parameters t args := by
  have hkeys : ∀ p ∈ map_parameters t args,
      assocLookup (getMapping t) p.1 = none := by
    intro p hp
    have hb : p.1 ∈ (map_parameters t args).map Prod.fst :=
      List.mem_map_of_mem Prod.fst hp
    rcases keys_mapParamsAux_sub (getMapping t) args [] p.1 hb
      with h0 | ⟨q, _, hqe⟩
    · simp at h0
    · cases hlq : assocLookup (getMapping t) q.1 with
      | none =>
        have hq1 : q.1 = p.1 := by
          simp only [mappedKeyOf, hlq] at hqe
          simpa using hqe
        rw [← hq1]
        exact hlq
      | some v =>
        have hv : v = some p.1 := by
          simp only [mappedKeyOf, hlq] at hqe
          exact hqe
        have hmem : (q.1, v) ∈ getMapping t := assocLookup_mem _ _ _ hlq
        have pall := List.all_eq_true.mp h (q.1, v) hmem
        rw [hv] at pall
        simp only [Option.isNone_iff_eq_none] at pall
        exact pall
  have hnd : ((map_parameters t args).map Prod.fst).Nodup :=
    nodup_keys_mapParamsAux (getMapping t) args [] (by simp)
  unfold map_parameters at hkeys hnd ⊢
  rw [mapParamsAux_id (getMapping t) (mapParamsAux (getMapping t) [] args) []
    hkeys hnd (by intro p _; simp)]
  simp

/-- Witness: the `read_file` table has targets disjoint from sources, and
mapping twice equals mapping once on a concrete argument dict. -/
theorem map_parameters_idempotent_wit :
    ((getMapping "read_file").all
        (fun p => match p.2 with
          | some d => (assocLookup (getMapping "read_file") d).isNone
          | none => true) = true)
    ∧ map_parameters "read_file"
        (map_parameters "read_file"
          ([("path", "notes.txt"), ("limit", "3")] : List (String × String)))
      = map_parameters "read_file" [("path", "notes.txt"), ("limit", "3")] :=
  ⟨by decide,
   map_parameters_idempotent "read_file" [("path", "notes.txt"), ("limit", "3")]
     (by decide)⟩

theorem countP_le_one_of_filterMap_nodup {β : Type} [DecidableEq β] :
    ∀ (l : List (Option β)) (b : β), (l.filterMap id).Nodup →
      l.countP (fun o => o = some b) ≤ 1 := by
  intro l b
  induction l with
  | nil => intro _; simp
  | cons o rest ih =>
    intro h
    cases o with
    | none =>
      have h2 : (rest.filterMap id).Nodup := by simpa using h
      have h3 := ih h2
      simpa [List.countP_cons] using h3
    | some c =>
      have hfm : List.filterMap id (some c :: rest) = c :: rest.filterMap id := by
        simp
      rw [hfm] at h
      obtain ⟨hc, hrest⟩ := List.nodup_cons.mp h
      by_cases hcb : c = b
      · subst hcb
        have hzero : rest.countP (fun o => o = some c) = 0 := by
          rw [List.countP_eq_zero]
          intro o ho
          simp only [decide_eq_true_eq]
          intro hoc
          subst hoc
          exact hc (List.mem_filterMap.mpr ⟨some c, ho, rfl⟩)
        simp [List.countP_cons, hzero]
      · have h3 := ih hrest
        have hq : (decide ((some c : Option β) = some b)) = false := by
          simp [hcb]
        simpa [List.countP_cons, hq, hcb] using h3

theorem find?_eq_of_perm_of_countP_le_one {β : Type} (q : β → Bool) :
    ∀ {l l' : List β}, l.Perm l' → l.countP q ≤ 1 →
      l.find? q = l'.find? q := by
  intro l l' hp
  induction hp with
  | nil => intro _; rfl
  | cons x h ih =>
    intro hc
    by_cases hx : q x
    · rw [List.find?_cons_of_pos _ hx, List.find?_cons_of_pos _ hx]
    · rw [List.find?_cons_of_neg _ hx, List.find?_cons_of_neg _ hx]
      exact ih (by simpa [List.countP_cons, hx] using hc)
  | swap x y l =>
    intro hc
    by_cases hx : q x <;> by_cases hy : q y
    · exfalso
      simp [List.countP_cons, hx, hy] at hc
    · rw [List.find?_cons_of_neg _ hy, List.find?_cons_of_pos _ hx,
        List.find?_cons_of_pos _ hx]
    · rw [List.find?_cons_of_pos _ hy, List.find?_cons_of_neg _ hx,
        List.find?_cons_of_pos _ hy]
    · rw [List.find?_cons_of_neg _ hy, List.find?_cons_of_neg _ hx,
        List.find?_cons_of_neg _ hx, List.find?_cons_of_neg _ hy]
  | trans h₁ h₂ ih₁ ih₂ =>
    intro hc
    rw [ih₁ hc, ih₂ ((h₁.countP_eq q) ▸ hc)]

/-- C8 counterexample: for the tool `search_flights`, whose rename table
sends `origin` to `from_city`, the two argument dicts
`{origin: CDG, from_city: LIM}` and `{from_city: LIM, origin: CDG}` hold
the same key/value pairs in different orders, yet `_map_parameters`
produces dicts that disagree at the backend key `from_city` (the later
supplied item overwrites the earlier one), so the claimed unconditional
order-independence is false. -/
theorem map_parameters_order_cex :
    (([("origin", "CDG"), ("from_city", "LIM")] :
        List (String × String)).Perm
      [("from_city", "LIM"), ("origin", "CDG")])
    ∧ assocLookup (map_parameters "search_flights"
        ([("origin", "CDG"), ("from_city", "LIM")] : List (String × String)))
        "from_city" = some "LIM"
    ∧ assocLookup (map_parameters "search_flights"
        ([("from_city", "LIM"), ("origin", "CDG")] : List (String × String)))
        "from_city" = some "CDG" :=
  ⟨List.Perm.swap _ _ _, by decide, by decide⟩

/-- C8 (amended): `_map_parameters` is order-independent — reordering the
supplied argument dict yields the same result dict (pointwise equal
lookups) — provided no two supplied items are assigned the same backend
key, i.e. the effective keys of the supplied items, drops discarded, are
pairwise distinct.  With colliding backend keys the rightmost supplied
item wins and the result depends on supplied order. -/
theorem map_parameters_order_independent {α : Type} (t : String)
    (a1 a2 : List (String × α)) (hperm : a1.Perm a2)
    (huniq : ((a1.map (fun p => mappedKeyOf (getMapping t) p.1)).filterMap
        id).Nodup) :
    ∀ b, assocLookup (map_parameters t a1) b
      = assocLookup (map_parameters t a2) b := by
  intro b
  unfold map_parameters
  rw [assocLookup_mapParamsAux, assocLookup_mapParamsAux]
  have hcount : a1.countP
      (fun p => mappedKeyOf (getMapping t) p.1 = some b) ≤ 1 := by
    have h2 := countP_le_one_of_filterMap_nodup
      (a1.map (fun p => mappedKeyOf (getMapping t) p.1)) b huniq
    rw [List.countP_map] at h2
    exact h2
  have hcr : a1.reverse.countP
      (fun p => mappedKeyOf (getMapping t) p.1 = some b) ≤ 1 := by
    rw [(List.reverse_perm a1).countP_eq]
    exact hcount
  have hpr : a1.reverse.Perm a2.reverse :=
    ((List.reverse_perm a1).trans hperm).trans (List.reverse_perm a2).symm
  rw [find?_eq_of_perm_of_countP_le_one _ hpr hcr]

/-- Witness: with non-colliding backend keys, reordering the supplied
arguments of `search_flights` does not change the produced dict at
`from_city`. -/
theorem map_parameters_order_independent_wit :
    assocLookup (map_parameters "search_flights"
        ([("origin", "CDG"), ("limit", "3")] : List (String × String)))
        "from_city"
      = assocLookup (map_parameters "search_flights"
        ([("limit", "3"), ("origin", "CDG")] : List (String × String)))
        "from_city" :=
  map_parameters_order_independent "search_flights" _ _
    (List.Perm.swap _ _ _) (by decide) "from_city"

/-- A tool advertised by a backend at registration time: the name and
description obtained from `client.list_tools()` (cli.py line 163).
Schemas are not modelled (no modelled behaviour reads them). -/
structure ListedTool where
  name : String
  description : String
  deriving DecidableEq

/-- One entry of `MCPManager.tools` (cli.py lines 168-173). -/
structure ToolEntry where
  server : String
  name : String
  description : String
  deriving DecidableEq

/-- The registry state of `MCPManager` (cli.py lines 154-156):
`servers` maps alias to target URL, `tools` is the merged tool list. -/
structure MCPManager where
  servers : List (String × String)
  tools : List ToolEntry
  deriving DecidableEq

/-- `MCPManager.add_server` (cli.py lines 158-173): a plain dict
assignment `self.servers[alias] = {"url": target}` followed by appending
every tool the backend lists.  The listing returned by the backend is an
explicit argument; the Python method performs no duplicate-alias check
and raises nothing on a re-registered alias. -/
def add_server (m : MCPManager) (al target : String)
    (listed : List ListedTool) : MCPManager :=
  { servers := dictInsert m.servers al target,
    tools := m.tools ++ listed.map (fun t => ⟨al, t.name, t.description⟩) }

/-- The model-facing tool descriptor built by
`MCPManager.get_tools_for_claude` (cli.py lines 326-337). -/
structure ClaudeTool where
  name : String
  description : String
  deriving DecidableEq

/-- `MCPManager.get_tools_for_claude` (cli.py lines 326-337): qualify each
tool name with its server alias and prefix the description with the
bracketed alias. -/
def get_tools_for_claude (m : MCPManager) : List ClaudeTool :=
  m.tools.map (fun t =>
    ⟨composeToolName t.server t.name, "[" ++ t.server ++ "] " ++ t.description⟩)

/-- C6 counterexample: registering the alias `fs` twice does not fail —
`add_server` is a total function with no error outcome (the Python body
is a plain dict assignment with no duplicate check) — and it does not
leave the existing registration unchanged: the alias now resolves to the
second target. -/
theorem duplicate_alias_cex :
    assocLookup (add_server (MCPManager.mk [] []) "fs" "url1" []).servers "fs"
      = some "url1"
    ∧ assocLookup (add_server (add_server (MCPManager.mk [] []) "fs" "url1" [])
        "fs" "url2" []).servers "fs" = some "url2" :=
  ⟨by decide, by decide⟩

/-- C6 (amended): calling `add_server` again with an already-registered
alias does not raise; it overwrites the registry entry, so afterwards the
alias resolves to the new target while every other alias resolves as
before. -/
theorem add_server_overwrites (m : MCPManager) (al target : String)
    (listed : List ListedTool) (b : String) :
    assocLookup (add_server m al target listed).servers b
      = if b = al then some target else assocLookup m.servers b := by
  unfold add_server
  exact assocLookup_dictInsert m.servers al target b

/-- The MCP transport plus result normalisation, abstracted: given the
configured target URL, the backend tool name and the mapped parameters,
a backend either produces a normalised JSON payload (carried as an
opaque string) or raises (`Except.error`).  This stands for
`FastMCPClient.call_tool` (cli.py lines 280-282) composed with the raw
result extraction of `main` (cli.py lines 541-558). -/
def Backend : Type :=
  String → String → List (String × String) → Except String String

/-- `MCPManager.call_tool` (cli.py lines 271-282): resolve the alias
(raising `ValueError` when absent), map the parameters, and invoke the
backend.  The method installs no exception handler: a backend failure
propagates to the caller. -/
def call_tool (m : MCPManager) (backend : Backend) (server_alias tool_name :
    String) (params : List (String × String)) : Except String String :=
  match assocLookup m.servers server_alias with
  | none => Except.error ("No such MCP server: " ++ server_alias)
  | some url => backend url tool_name (map_parameters tool_name params)

/-- One segment of a model response (`resp.content` in cli.py line 522):
plain text, or a tool-use request carrying a call id, a qualified tool
name and an argument dict. -/
inductive ContentPart where
  | text (s : String)
  | toolUse (callId name : String) (input : List (String × String))
  deriving DecidableEq

/-- One entry of the `tool_results` list built in `main`
(cli.py lines 563-567): the dict
`{"type": "tool_result", "tool_use_id": part.id, "content": ...}`.
Note the dict carries no error flag of any kind. -/
structure ToolResultSeg where
  tool_use_id : String
  content : String
  deriving DecidableEq

/-- The content of one history message: plain text, the assistant's
original segments, or a batch of tool results. -/
inductive MsgContent where
  | text (s : String)
  | parts (ps : List ContentPart)
  | results (rs : List ToolResultSeg)
  deriving DecidableEq

/-- One entry of the in-memory `history` list of `main`. -/
structure Message where
  role : String
  content : MsgContent
  deriving DecidableEq

/-- Python `str.strip()` as used by `if not text_response.strip()`
(cli.py line 592). -/
def pyStrip (s : String) : String :=
  String.mk (((s.data.dropWhile Char.isWhitespace).reverse.dropWhile
    Char.isWhitespace).reverse)

/-- The `"".join(p.text for p in content if p.type == "text")` folds of
`main` (cli.py lines 589 and 600). -/
def concatTexts (ps : List ContentPart) : String :=
  ps.foldl (fun s p =>
    match p with
    | ContentPart.text t => s ++ t
    | ContentPart.toolUse _ _ _ => s) ""

/-- The `for part in resp.content` loop of `main` (cli.py lines 522-568),
with the accumulated `assistant_content`, `tool_results` and `handled`
state explicit.  A tool-use part whose name does not parse to a truthy
alias is skipped by `continue` (lines 536-538) with nothing recorded; a
backend exception aborts the whole loop (`Except.error`), as the loop
body installs no handler. -/
def partsLoop (m : MCPManager) (backend : Backend) :
    List ContentPart → List ContentPart → List ToolResultSeg → Bool →
      Except String (List ContentPart × List ToolResultSeg × Bool)
  | [], ac, tr, h => Except.ok (ac, tr, h)
  | ContentPart.text s :: rest, ac, tr, h =>
    partsLoop m backend rest (ac ++ [ContentPart.text s]) tr h
  | ContentPart.toolUse i n inp :: rest, ac, tr, h =>
    match parse_tool_name n with
    | (some al, tname) =>
      if al = "" then
        partsLoop m backend rest (ac ++ [ContentPart.toolUse i n inp]) tr h
      else
        match call_tool m backend al tname inp with
        | Except.error e => Except.error e
        | Except.ok res =>
          partsLoop m backend rest (ac ++ [ContentPart.toolUse i n inp])
            (tr ++ [⟨i, res⟩]) true
    | (none, _) =>
      partsLoop m backend rest (ac ++ [ContentPart.toolUse i n inp]) tr h

/-- The outcome of one turn of the `main` loop: the messages appended to
the in-memory history (the user input included), whether the followup
model call was reached, and the system error message logged by the
turn-level `except` handler (cli.py lines 605-609) when the turn raised. -/
structure TurnOutcome where
  history : List Message
  followupCalled : Bool
  errorLogged : Option String
  deriving DecidableEq

/-- One turn of the `main` loop (cli.py lines 505-609): append the user
message, process the model response parts; on an exception log a system
error and abandon the turn; with at least one handled tool call append
the assistant segments and the batched results, make the followup call
(whose response parts are an explicit argument) and append its text
(with the fixed fallback when blank); with no handled call append the
concatenated text of the original response. -/
def runTurn (m : MCPManager) (backend : Backend) (userInput : String)
    (respParts followupParts : List ContentPart) : TurnOutcome :=
  let userMsg : Message := ⟨"user", MsgContent.text userInput⟩
  match partsLoop m backend respParts [] [] false with
  | Except.error e => ⟨[userMsg], false, some ("Error: " ++ e)⟩
  | Except.ok (ac, tr, handled) =>
    if handled then
      let t0 := concatTexts followupParts
      let t1 := if pyStrip t0 = "" then "Task completed successfully." else t0
      ⟨[userMsg, ⟨"assistant", MsgContent.parts ac⟩,
        ⟨"user", MsgContent.results tr⟩, ⟨"assistant", MsgContent.text t1⟩],
        true, none⟩
    else
      ⟨[userMsg, ⟨"assistant", MsgContent.text (concatTexts respParts)⟩],
        false, none⟩

/-- A one-provider registry fixture: alias `fs` registered with a target. -/
def mgrFS : MCPManager := ⟨[("fs", "stdio:fs")], []⟩

/-- A backend whose every dispatch succeeds with payload `"done"`. -/
def backendOk : Backend := fun _ _ _ => Except.ok "done"

/-- A backend whose every dispatch raises a transport error. -/
def backendFail : Backend := fun _ _ _ => Except.error "Connection refused"

/-- C1 counterexample: with alias `fs` registered and a backend whose
dispatch raises, `call_tool` propagates the error to its caller instead
of converting the failure into an error-flagged result (the result dicts
of the code carry no error flag at all), and the turn is abandoned
before the followup model call: the loop-level handler logs the error
and the conversation history receives no result message. -/
theorem dispatch_error_cex :
    call_tool mgrFS backendFail "fs" "read_file" [("path", "x")]
      = Except.error "Connection refused"
    ∧ runTurn mgrFS backendFail "hi"
        [ContentPart.toolUse "1" "fs_read_file" [("path", "x")]] []
      = ⟨[⟨"user", MsgContent.text "hi"⟩], false,
          some "Error: Connection refused"⟩ :=
  ⟨rfl, by decide⟩

/-- C1 (amended): `call_tool` installs no exception handler, so backend
dispatch failures propagate to its caller exactly like the unknown-alias
`ValueError`; during a turn a failed dispatch reaches the turn-level
`except` handler, which logs a system error and abandons the turn with
no followup model call (the outer loop then continues). -/
theorem call_tool_error_propagation (m : MCPManager) (backend : Backend)
    (al tool : String) (params : List (String × String)) :
    (assocLookup m.servers al = none →
      call_tool m backend al tool params
        = Except.error ("No such MCP server: " ++ al))
    ∧ (∀ url e, assocLookup m.servers al = some url →
        backend url tool (map_parameters tool params) = Except.error e →
        call_tool m backend al tool params = Except.error e)
    ∧ (∀ (userInput i n tn : String) (fps : List ContentPart) (e : String),
        parse_tool_name n = (some al, tn) → ¬ al = "" →
        call_tool m backend al tn params = Except.error e →
        runTurn m backend userInput [ContentPart.toolUse i n params] fps
          = ⟨[⟨"user", MsgContent.text userInput⟩], false,
              some ("Error: " ++ e)⟩) := by
  refine ⟨?_, ?_, ?_⟩
  · intro h
    unfold call_tool
    rw [h]
  · intro url e hu hb
    unfold call_tool
    rw [hu]
    exact hb
  · intro userInput i n tn fps e hparse hne hcall
    unfold runTurn
    simp only [partsLoop, hparse, if_neg hne, hcall]

/-- Witness: error propagation evaluated on the `fs` fixture with the
failing backend, for an unknown alias and for a backend failure. -/
theorem call_tool_error_propagation_wit :
    call_tool mgrFS backendFail "zz" "git_status" []
      = Except.error "No such MCP server: zz"
    ∧ call_tool mgrFS backendFail "fs" "read_file" [("path", "x")]
      = Except.error "Connection refused" :=
  ⟨(call_tool_error_propagation mgrFS backendFail "zz" "git_status" []).1 rfl,
   (call_tool_error_propagation mgrFS backendFail "fs" "read_file"
     [("path", "x")]).2.1 "stdio:fs" "Connection refused" rfl rfl⟩

/-- Whether a model response contains at least one tool-use segment. -/
def hasToolCall (ps : List ContentPart) : Bool :=
  ps.any (fun p =>
    match p with
    | ContentPart.toolUse _ _ _ => true
    | ContentPart.text _ => false)

/-- The batch of tool results the loop of `main` collects from a response
whose every dispatch returns: one result per tool-use segment, in
response order, keyed by the request's call id. -/
def resultsOf (m : MCPManager) (backend : Backend)
    (ps : List ContentPart) : List ToolResultSeg :=
  ps.filterMap (fun p =>
    match p with
    | ContentPart.text _ => none
    | ContentPart.toolUse i n inp =>
      match parse_tool_name n with
      | (some al, tname) =>
        if al = "" then none
        else
          match call_tool m backend al tname inp with
          | Except.ok res => some ⟨i, res⟩
          | Except.error _ => none
      | (none, _) => none)

/-- The call ids of the tool-use segments of a response, in order. -/
def toolUseIds (ps : List ContentPart) : List String :=
  ps.filterMap (fun p =>
    match p with
    | ContentPart.toolUse i _ _ => some i
    | ContentPart.text _ => none)

theorem partsLoop_ok (m : MCPManager) (backend : Backend) :
    ∀ (ps : List ContentPart),
      (∀ i n inp, ContentPart.toolUse i n inp ∈ ps →
        ∃ al tn r, parse_tool_name n = (some al, tn) ∧ ¬ al = ""
          ∧ call_tool m backend al tn inp = Except.ok r) →
      ∀ (ac : List ContentPart) (tr : List ToolResultSeg) (h : Bool),
        partsLoop m backend ps ac tr h
          = Except.ok (ac ++ ps, tr ++ resultsOf m backend ps,
              h || hasToolCall ps) := by
  intro ps
  induction ps with
  | nil =>
    intro _ ac tr h
    simp [partsLoop, resultsOf, hasToolCall]
  | cons p rest ih =>
    intro hOk ac tr h
    cases p with
    | text s =>
      rw [show partsLoop m backend (ContentPart.text s :: rest) ac tr h
          = partsLoop m backend rest (ac ++ [ContentPart.text s]) tr h from rfl]
      rw [ih (fun i n inp hm => hOk i n inp (List.mem_cons_of_mem _ hm))]
      simp [resultsOf, hasToolCall]
    | toolUse i n inp =>
      obtain ⟨al, tn, r, hparse, hne, hcall⟩ :=
        hOk i n inp (List.mem_cons_self _ _)
      simp only [partsLoop, hparse, if_neg hne, hcall]
      rw [ih (fun i2 n2 inp2 hm => hOk i2 n2 inp2 (List.mem_cons_of_mem _ hm))]
      simp [resultsOf, hasToolCall, hparse, hne, hcall]

theorem resultsOf_ids (m : MCPManager) (backend : Backend) :
    ∀ (ps : List ContentPart),
      (∀ i n inp, ContentPart.toolUse i n inp ∈ ps →
        ∃ al tn r, parse_tool_name n = (some al, tn) ∧ ¬ al = ""
          ∧ call_tool m backend al tn inp = Except.ok r) →
      (resultsOf m backend ps).map ToolResultSeg.tool_use_id
        = toolUseIds ps := by
  intro ps
  induction ps with
  | nil => intro _; rfl
  | cons p rest ih =>
    intro hOk
    cases p with
    | text s =>
      simpa [resultsOf, toolUseIds] using
        ih (fun i n inp hm => hOk i n inp (List.mem_cons_of_mem _ hm))
    | toolUse i n inp =>
      obtain ⟨al, tn, r, hparse, hne, hcall⟩ :=
        hOk i n inp (List.mem_cons_self _ _)
      have ih2 := ih (fun i2 n2 inp2 hm => hOk i2 n2 inp2
        (List.mem_cons_of_mem _ hm))
      simp only [resultsOf, toolUseIds, List.filterMap_cons, hparse,
        if_neg hne, hcall] at ih2 ⊢
      simpa [resultsOf, toolUseIds] using ih2

/-- C3 (amended): when every tool-use request of the response parses to a
truthy alias and every dispatch returns, the requests are executed
sequentially in response order, the assistant message with its original
segments is appended, then a single user-role message whose content is
the results in request order, each carrying the callId of its request,
and the followup model call occurs.  (Unconditionally the claim is false:
a request whose name fails to parse is skipped with no result — see the
counterexample — and a dispatch failure abandons the turn.) -/
theorem turn_tool_order (m : MCPManager) (backend : Backend)
    (userInput : String) (ps fps : List ContentPart)
    (hne : hasToolCall ps = true)
    (hOk : ∀ i n inp, ContentPart.toolUse i n inp ∈ ps →
      ∃ al tn r, parse_tool_name n = (some al, tn) ∧ ¬ al = ""
        ∧ call_tool m backend al tn inp = Except.ok r) :
    runTurn m backend userInput ps fps
      = ⟨[⟨"user", MsgContent.text userInput⟩,
          ⟨"assistant", MsgContent.parts ps⟩,
          ⟨"user", MsgContent.results (resultsOf m backend ps)⟩,
          ⟨"assistant", MsgContent.text
            (if pyStrip (concatTexts fps) = ""
             then "Task completed successfully." else concatTexts fps)⟩],
          true, none⟩
    ∧ (resultsOf m backend ps).map ToolResultSeg.tool_use_id
        = toolUseIds ps := by
  constructor
  · unfold runTurn
    rw [partsLoop_ok m backend ps hOk [] [] false]
    simp [hne]
  · exact resultsOf_ids m backend ps hOk

/-- Witness: a response with one text segment and one well-formed tool
request, executed against the `fs` fixture with the succeeding backend. -/
theorem turn_tool_order_wit :
    runTurn mgrFS backendOk "hi"
        [ContentPart.text "calling",
         ContentPart.toolUse "1" "fs_read_file" [("path", "x")]]
        [ContentPart.text "all read"]
      = ⟨[⟨"user", MsgContent.text "hi"⟩,
          ⟨"assistant", MsgContent.parts
            [ContentPart.text "calling",
             ContentPart.toolUse "1" "fs_read_file" [("path", "x")]]⟩,
          ⟨"user", MsgContent.results (resultsOf mgrFS backendOk
            [ContentPart.text "calling",
             ContentPart.toolUse "1" "fs_read_file" [("path", "x")]])⟩,
          ⟨"assistant", MsgContent.text
            (if pyStrip (concatTexts [ContentPart.text "all read"]) = ""
             then "Task completed successfully."
             else concatTexts [ContentPart.text "all read"])⟩], true, none⟩
    ∧ (resultsOf mgrFS backendOk
        [ContentPart.text "calling",
         ContentPart.toolUse "1" "fs_read_file" [("path", "x")]]).map
          ToolResultSeg.tool_use_id
      = toolUseIds [ContentPart.text "calling",
          ContentPart.toolUse "1" "fs_read_file" [("path", "x")]] :=
  turn_tool_order mgrFS backendOk "hi"
    [ContentPart.text "calling",
     ContentPart.toolUse "1" "fs_read_file" [("path", "x")]]
    [ContentPart.text "all read"] (by decide)
    (by
      intro i n inp hm
      simp only [List.mem_cons, List.not_mem_nil, or_false] at hm
      rcases hm with h1 | h2
      · exact absurd h1 (by simp)
      · injection h2 with hi hn hinp
        subst hi; subst hn; subst hinp
        exact ⟨"fs", "read_file", "done", by decide, by decide, rfl⟩)

/-- C3 counterexample: a response whose single tool request has a
separator-free qualified name: the request is not executed, no user-role
results message is appended at all (so no result carries its callId),
and the followup call does not occur — refuting the unconditional claim
for this response. -/
theorem turn_order_cex :
    runTurn mgrFS backendOk "hi"
        [ContentPart.toolUse "1" "noseparator" []] []
      = ⟨[⟨"user", MsgContent.text "hi"⟩,
          ⟨"assistant", MsgContent.text ""⟩], false, none⟩
    ∧ (runTurn mgrFS backendOk "hi"
        [ContentPart.toolUse "1" "noseparator" []] []).history.all
        (fun msg =>
          match msg.content with
          | MsgContent.results _ => false
          | _ => true) = true :=
  ⟨by decide, by decide⟩

/-- C5 (amended): a tool-use request whose qualified name fails to split
is skipped by the loop (cli.py lines 536-538): it is appended to the
assistant segments but no result — error-flagged or otherwise — is
recorded for its callId, and processing continues with the remaining
parts, so the turn is not aborted.  The followup call then occurs only
if some other request was dispatched successfully. -/
theorem malformed_call_skipped (m : MCPManager) (backend : Backend)
    (i n n2 : String) (inp : List (String × String))
    (rest ac : List ContentPart) (tr : List ToolResultSeg) (h : Bool)
    (hp : parse_tool_name n = (none, n2)) :
    partsLoop m backend (ContentPart.toolUse i n inp :: rest) ac tr h
      = partsLoop m backend rest (ac ++ [ContentPart.toolUse i n inp]) tr h := by
  simp only [partsLoop, hp]

/-- Witness: the skip step evaluated on a separator-free name. -/
theorem malformed_call_skipped_wit :
    parse_tool_name "plainname" = (none, "plainname")
    ∧ partsLoop mgrFS backendOk
        [ContentPart.toolUse "9" "plainname" []] [] [] false
      = partsLoop mgrFS backendOk []
        [ContentPart.toolUse "9" "plainname" []] [] false :=
  ⟨by decide,
   malformed_call_skipped mgrFS backendOk "9" "plainname" "plainname" []
     [] [] [] false (by decide)⟩

/-- C5 counterexample: in a response with a malformed first request
(`plainname`, no separator) and a well-formed second request, the turn
completes and the single results message contains an entry for callId 2
only — no error result is recorded for the malformed call's callId 1
anywhere in the appended messages, refuting the claim that an error
result is recorded for that call. -/
theorem malformed_no_result_cex :
    runTurn mgrFS backendOk "hi"
        [ContentPart.toolUse "1" "plainname" [],
         ContentPart.toolUse "2" "fs_git_status" []]
        [ContentPart.text "ok"]
      = ⟨[⟨"user", MsgContent.text "hi"⟩,
          ⟨"assistant", MsgContent.parts
            [ContentPart.toolUse "1" "plainname" [],
             ContentPart.toolUse "2" "fs_git_status" []]⟩,
          ⟨"user", MsgContent.results [⟨"2", "done"⟩]⟩,
          ⟨"assistant", MsgContent.text "ok"⟩], true, none⟩
    ∧ (runTurn mgrFS backendOk "hi"
        [ContentPart.toolUse "1" "plainname" [],
         ContentPart.toolUse "2" "fs_git_status" []]
        [ContentPart.text "ok"]).history.all
        (fun msg =>
          match msg.content with
          | MsgContent.results rs => rs.all (fun r => r.tool_use_id ≠ "1")
          | _ => true) = true :=
  ⟨by decide, by decide⟩

/-- One entry of a session's persisted `history` array
(cli.py lines 75-84). -/
structure LogMessage where
  role : String
  content : String
  timestamp : Nat
  metadata : Option String
  deriving DecidableEq

/-- The session document of `ChatLogManager` (cli.py lines 35-41). -/
structure SessionData where
  session_name : String
  created_at : Nat
  last_updated : Nat
  message_count : Nat
  history : List LogMessage
  deriving DecidableEq

/-- `ChatLogManager.save_session_data` (cli.py lines 56-65): on every
save, `last_updated` is set to the current time and `message_count` to
the length of `history` before the document is rewritten. -/
def save_session_data (s : SessionData) (now : Nat) : SessionData :=
  { s with last_updated := now, message_count := s.history.length }

/-- `ChatLogManager.create_new_session` (cli.py lines 26-44): a fresh
document with empty history, saved once. -/
def create_new_session (name : String) (now : Nat) : SessionData :=
  save_session_data ⟨name, now, now, 0, []⟩ now

/-- `ChatLogManager.append_message` (cli.py lines 67-85): load the
current document, append one message, save. -/
def append_message (s : SessionData) (role content : String)
    (metadata : Option String) (now : Nat) : SessionData :=
  save_session_data
    { s with history := s.history ++ [⟨role, content, now, metadata⟩] } now

/-- The arguments of one `append_message` call. -/
structure AppendOp where
  role : String
  content : String
  metadata : Option String
  now : Nat

/-- A sequence of `append_message` calls applied in order. -/
def applyAppends (s : SessionData) (ops : List AppendOp) : SessionData :=
  ops.foldl
    (fun t op => append_message t op.role op.content op.metadata op.now) s

/-- C9: after any sequence of appends starting from creation, the stored
session's `message_count` equals the length of its `history`, and every
append recomputes `last_updated` to the current time (and the count). -/
theorem session_message_count_invariant :
    (∀ (name : String) (t0 : Nat) (ops : List AppendOp),
      (applyAppends (create_new_session name t0) ops).message_count
        = (applyAppends (create_new_session name t0) ops).history.length)
    ∧ (∀ (s : SessionData) (role content : String) (meta : Option String)
        (now : Nat),
      (append_message s role content meta now).last_updated = now
      ∧ (append_message s role content meta now).message_count
        = (append_message s role content meta now).history.length) := by
  have hstep : ∀ (s : SessionData) (r c : String) (md : Option String)
      (n : Nat),
      (append_message s r c md n).message_count
        = (append_message s r c md n).history.length := by
    intro s r c md n
    rfl
  constructor
  · intro name t0 ops
    have hgen : ∀ (ops : List AppendOp) (s : SessionData),
        s.message_count = s.history.length →
        (applyAppends s ops).message_count
          = (applyAppends s ops).history.length := by
      intro ops
      induction ops with
      | nil => intro s hs; exact hs
      | cons op rest ih =>
        intro s _
        exact ih (append_message s op.role op.content op.metadata op.now)
          (hstep s op.role op.content op.metadata op.now)
    exact hgen ops (create_new_session name t0) rfl
  · intro s r c md n
    exact ⟨rfl, hstep s r c md n⟩

end CLI
